import Mathlib

/-!
# Chip-8 interpreter core (`chip/chip.cpp`)

A shallow embedding of the instruction-cycle engine of `chip/chip.cpp`.

Conventions of the embedding

* `byte` values are naturals below `256`, `word` values are naturals below
  `65536`; every store that can leave the range is reduced explicitly.
* `std::vector` is a `List`; `v[k]` outside the vector has no defined
  behaviour in the source, so every handler returns an `Option` and an
  access outside the vector yields `none`.
* A handler `void Chip::op(args)` becomes `Chip.op : Chip → args → Option Chip`.
-/

set_option linter.unusedVariables false

/-- Instruction width in bytes (`static const word OP_OFFSET = 2`). -/
def OP_OFFSET : Nat := 2

/-- Width constant of the source (`static const byte SCREEN_WIDTH = 64`). -/
def SCREEN_WIDTH : Nat := 64

/-- Height constant of the source (`static const byte SCREEN_HEIGHT = 32`). -/
def SCREEN_HEIGHT : Nat := 32

/-- Sprites of Chip 8, the 80 bytes of `FONT_SET`. -/
def FONT_SET : List Nat := [
  0xF0, 0x90, 0x90, 0x90, 0xF0, 0x20, 0x60, 0x20, 0x20, 0x70, 0xF0, 0x10,
  0xF0, 0x80, 0xF0, 0xF0, 0x10, 0xF0, 0x10, 0xF0, 0x90, 0x90, 0xF0, 0x10,
  0x10, 0xF0, 0x80, 0xF0, 0x10, 0xF0, 0xF0, 0x80, 0xF0, 0x90, 0xF0, 0xF0,
  0x10, 0x20, 0x40, 0x40, 0xF0, 0x90, 0xF0, 0x90, 0xF0, 0xF0, 0x90, 0xF0,
  0x10, 0xF0, 0xF0, 0x90, 0xF0, 0x90, 0x90, 0xE0, 0x90, 0xE0, 0x90, 0xE0,
  0xF0, 0x80, 0x80, 0x80, 0xF0, 0xE0, 0x90, 0x90, 0x90, 0xE0, 0xF0, 0x80,
  0xF0, 0x80, 0xF0, 0xF0, 0x80, 0xF0, 0x80, 0x80]

/-- Assignment `v[k] = e` on a vector: defined only inside the vector. -/
def store {α : Type} (v : List α) (k : Nat) (e : α) : Option (List α) :=
  if k < v.length then some (v.set k e) else none

/-- Conversion of a C++ `bool` to an integer. -/
def ofBool (b : Bool) : Nat := if b then 1 else 0

/-- Modelled from the spec: the class declaration in `chip.h` is absent from the
sources; the members are the ones initialised by the constructor, `byte` is an
unsigned 8-bit and `word` an unsigned 16-bit integer, the timers `rt`, `rd` and
the stack index `sp` are bytes, `i` and `pc` are words. -/
structure Chip where
  rt : Nat
  rd : Nat
  sp : Nat
  i : Nat
  pc : Nat
  stack : List Nat
  memory : List Nat
  registers : List Nat
  keyboard : List Bool
  screen : List (List Nat)
deriving DecidableEq, Repr

namespace Chip

/-- The constructor `Chip::Chip()`: zeroed state, `pc = 0x200`, then the loop
copying `FONT_SET` into the start of memory. -/
def new : Chip :=
  { rt := 0, rd := 0, sp := 0, i := 0, pc := 0x0200,
    stack := List.replicate 16 0,
    memory := (List.range FONT_SET.length).foldl
      (fun m k => m.set k (FONT_SET.getD k 0)) (List.replicate 0x1000 0),
    registers := List.replicate 16 0,
    keyboard := List.replicate 16 false,
    screen := List.replicate 64 (List.replicate 32 0) }

/-- The method `Chip::fetch`: the word `memory[pc] << 8 | memory[pc + 1]`,
returned with the machine state the call leaves behind. -/
def fetch (s : Chip) : Option (Nat × Chip) := do
  let addr := s.pc
  let hi ← s.memory[addr]?
  let lo ← s.memory[addr + 1]?
  some (((hi <<< 8) ||| lo) % 65536, s)

/-- CLS - clear display. -/
def op_00e0 (s : Chip) : Option Chip :=
  some { s with
    screen := s.screen.map (fun row => List.replicate row.length 0),
    pc := (s.pc + OP_OFFSET) % 65536 }

/-- RET - return from a subroutine. -/
def op_00ee (s : Chip) : Option Chip := do
  let sp := (s.sp + 256 - 1) % 256
  let ret ← s.stack[sp]?
  some { s with sp := sp, pc := ret }

/-- JP - jump to location nnn. -/
def op_1nnn (s : Chip) (addr : Nat) : Option Chip :=
  some { s with pc := addr }

/-- CALL - call subroutine at nnn. -/
def op_2nnn (s : Chip) (addr : Nat) : Option Chip := do
  let stack ← store s.stack s.sp s.pc
  some { s with stack := stack, sp := (s.sp + 1) % 256, pc := addr }

/-- SE - skip next instruction if vx = kk. -/
def op_3xkk (s : Chip) (kk x : Nat) : Option Chip := do
  let vx ← s.registers[x]?
  if vx = kk then
    some { s with pc := (s.pc + 2 * OP_OFFSET) % 65536 }
  else
    some { s with pc := (s.pc + OP_OFFSET) % 65536 }

/-- SNE - skip next instruction if vx != kk. -/
def op_4xkk (s : Chip) (kk x : Nat) : Option Chip := do
  let vx ← s.registers[x]?
  if vx ≠ kk then
    some { s with pc := (s.pc + 2 * OP_OFFSET) % 65536 }
  else
    some { s with pc := (s.pc + OP_OFFSET) % 65536 }

/-- SE - skip next instruction if vx = vy. -/
def op_5xy0 (s : Chip) (x y : Nat) : Option Chip := do
  let vx ← s.registers[x]?
  let vy ← s.registers[y]?
  if vx = vy then
    some { s with pc := (s.pc + 2 * OP_OFFSET) % 65536 }
  else
    some { s with pc := (s.pc + OP_OFFSET) % 65536 }

/-- LD - set vx = kk. -/
def op_6xkk (s : Chip) (kk x : Nat) : Option Chip := do
  let registers ← store s.registers x kk
  some { s with registers := registers, pc := (s.pc + OP_OFFSET) % 65536 }

/-- ADD - set vx = vx + kk. -/
def op_7xkk (s : Chip) (kk x : Nat) : Option Chip := do
  let vx ← s.registers[x]?
  let registers ← store s.registers x ((vx + kk) % 256)
  some { s with registers := registers, pc := (s.pc + OP_OFFSET) % 65536 }

/-- ADD - set vx = vx + vy, set vf = carry. -/
def op_8xy4 (s : Chip) (x y : Nat) : Option Chip := do
  let vx ← s.registers[x]?
  let vy ← s.registers[y]?
  let sum := (vx + vy) % 65536
  let r1 ← store s.registers 0x0f (ofBool (decide (sum > 255)))
  let r2 ← store r1 x (sum % 256)
  some { s with registers := r2, pc := (s.pc + OP_OFFSET) % 65536 }

/-- SUB - set vx = vx - vy, set vf = not borrow. -/
def op_8xy5 (s : Chip) (x y : Nat) : Option Chip := do
  let vx ← s.registers[x]?
  let vy ← s.registers[y]?
  let r1 ← store s.registers 0x0f (ofBool (decide (vx > vy)))
  let vx1 ← r1[x]?
  let vy1 ← r1[y]?
  let r2 ← store r1 x (Int.toNat (((vx1 : Int) - (vy1 : Int)) % 256))
  some { s with registers := r2, pc := (s.pc + OP_OFFSET) % 65536 }

/-- SHR - set vx = vx >> 1. -/
def op_8xy6 (s : Chip) (x : Nat) : Option Chip := do
  let vx ← s.registers[x]?
  let r1 ← store s.registers 0x0f (vx &&& 0x01)
  let vx1 ← r1[x]?
  let r2 ← store r1 x (vx1 >>> 1)
  some { s with registers := r2, pc := (s.pc + OP_OFFSET) % 65536 }

/-- SUBN - set vx = vy - vx, set vf = not borrow. -/
def op_8xy7 (s : Chip) (x y : Nat) : Option Chip := do
  let vx ← s.registers[x]?
  let vy ← s.registers[y]?
  let r1 ← store s.registers 0x0f (ofBool (decide (vy > vx)))
  let vx1 ← r1[x]?
  let vy1 ← r1[y]?
  let r2 ← store r1 x (Int.toNat (((vy1 : Int) - (vx1 : Int)) % 256))
  some { s with registers := r2, pc := (s.pc + OP_OFFSET) % 65536 }

/-- SHL - set vx = vx << 1. -/
def op_8xye (s : Chip) (x : Nat) : Option Chip := do
  let vx ← s.registers[x]?
  let r1 ← store s.registers 0x0f ((vx &&& 0x80) >>> 7)
  let vx1 ← r1[x]?
  let r2 ← store r1 x ((vx1 <<< 1) % 256)
  some { s with registers := r2, pc := (s.pc + OP_OFFSET) % 65536 }

/-- Annn - set I = nnn. -/
def op_annn (s : Chip) (addr : Nat) : Option Chip :=
  some { s with i := addr, pc := (s.pc + OP_OFFSET) % 65536 }

/-- Bnnn: `pc = registers[0] + addr`, then `pc += OP_OFFSET`. -/
def op_bnnn (s : Chip) (addr : Nat) : Option Chip := do
  let v0 ← s.registers[0x0]?
  let pc := (v0 + addr) % 65536
  some { s with pc := (pc + OP_OFFSET) % 65536 }

/-- Body of the inner loop of `op_dxyn`, for one value of `bit`: the column is
computed from `j`, the pixel is `sprite >> (7 - bit)` stored in a byte. -/
def drawBit (x j cy sprite : Nat) (s : Chip) (bit : Nat) : Option Chip := do
  let vx ← s.registers[x]?
  let cx := ((vx + j) % SCREEN_WIDTH) % 256
  let pixel := (sprite >>> (7 - bit)) % 256
  let row ← s.screen[cy]?
  let cell ← row[cx]?
  let vf ← s.registers[0x0f]?
  let registers ← store s.registers 0x0f (vf ||| (pixel &&& cell))
  let row1 ← store row cx (pixel ^^^ cell)
  let screen ← store s.screen cy row1
  some { s with registers := registers, screen := screen }

/-- Body of the outer loop of `op_dxyn`, for one value of `j`. -/
def drawRow (x y : Nat) (s : Chip) (j : Nat) : Option Chip := do
  let sprite ← s.memory[j]?
  let vy ← s.registers[y]?
  let cy := ((vy + j) % SCREEN_HEIGHT) % 256
  (List.range 8).foldlM (drawBit x j cy sprite) s

/-- DRW: `registers[0xf] = 0`, then the loop `for (j = i; j <= n; j++)` over the
rows, then `pc += OP_OFFSET`. -/
def op_dxyn (s : Chip) (x y n : Nat) : Option Chip := do
  let registers ← store s.registers 0x0f 0
  let s0 := { s with registers := registers }
  let s1 ← (List.range' s.i (n + 1 - s.i)).foldlM (drawRow x y) s0
  some { s1 with pc := (s1.pc + OP_OFFSET) % 65536 }

/-- The dispatcher `Chip::execute`: the four nibbles of the word, then the two
wired instructions and the default advance. -/
def execute (s : Chip) (opcode : Nat) : Option Chip :=
  let nib4 := (opcode &&& 0x000f) % 256
  let nib3 := ((opcode &&& 0x00f0) >>> 4) % 256
  let nib2 := ((opcode &&& 0x0f00) >>> 8) % 256
  let nib1 := ((opcode &&& 0xf000) >>> 12) % 256
  let x := nib2
  let y := nib3
  let n := nib4
  let kk := (opcode &&& 0x00ff) % 256
  let nnn := (opcode &&& 0x0fff) % 65536
  if nib1 = 0x0 ∧ nib2 = 0x0 ∧ nib3 = 0xe ∧ nib4 = 0x0 then
    op_00e0 s
  else if nib1 = 0x0 ∧ nib2 = 0x0 ∧ nib3 = 0xe ∧ nib4 = 0xe then
    op_00ee s
  else
    some { s with pc := (s.pc + OP_OFFSET) % 65536 }

/-- One iteration of the body of `Chip::cycle`: fetch, then execute. -/
def cycleBody (s : Chip) : Option Chip := do
  let (opcode, s1) ← fetch s
  execute s1 opcode

/-- Well-formed machine state: the vector sizes fixed by the constructor and
every stored value inside the range of its C++ type. -/
structure WF (s : Chip) : Prop where
  rt_lt : s.rt < 256
  rd_lt : s.rd < 256
  sp_lt : s.sp < 256
  i_lt : s.i < 65536
  pc_lt : s.pc < 65536
  stack_len : s.stack.length = 16
  stack_lt : ∀ v ∈ s.stack, v < 65536
  memory_len : s.memory.length = 0x1000
  memory_lt : ∀ v ∈ s.memory, v < 256
  registers_len : s.registers.length = 16
  registers_lt : ∀ v ∈ s.registers, v < 256
  keyboard_len : s.keyboard.length = 16
  screen_len : s.screen.length = 64
  screen_row_len : ∀ row ∈ s.screen, row.length = 32
  screen_lt : ∀ row ∈ s.screen, ∀ v ∈ row, v < 256

end Chip

/-! ## Machines of the concrete scenarios and screen operations used in the proofs -/

/-- The machine of the concrete scenario: a freshly constructed machine whose
memory additionally holds `60 05 30 05` at `0x200`. -/
def scenario : Chip :=
  { Chip.new with
    memory := (((Chip.new.memory.set 0x200 0x60).set 0x201 0x05).set 0x202 0x30).set 0x203 0x05 }

/-- Two iterations of the body of `Chip::cycle`. -/
def twoCycles (s : Chip) : Option Chip :=
  Chip.cycleBody s >>= Chip.cycleBody

/-- Machine used to exercise `op_8xy5` with `y = 0xF`: a constructed machine
after `op_6xkk(5, 0)` and `op_6xkk(3, 0xF)`, with `pc` put back to `0x200`. -/
def subFlagState : Chip :=
  { Chip.new with registers := (Chip.new.registers.set 0 5).set 0xF 3 }

/-- Machine used to draw across the right edge: a constructed machine with
`i = 0x200`, the sprite byte `0xFF` at `memory[0x200]`, `registers[0] = 60` and
`registers[1] = 0`; the screen is clear. -/
def edgeState : Chip :=
  { Chip.new with
    i := 0x200,
    memory := Chip.new.memory.set 0x200 0xFF,
    registers := Chip.new.registers.set 0 60 }

/-- Machine whose column register is outside the left half of the screen: a
constructed machine with `registers[0] = 40`, `i = 0`. -/
def column40State : Chip :=
  { Chip.new with registers := Chip.new.registers.set 0 40 }

/-- Machine with `registers[2] = 30`, `registers[3] = 7` and `i = 0`: a
constructed machine after `op_6xkk(30, 2)` and `op_6xkk(7, 3)`. -/
def column30State : Chip :=
  { Chip.new with registers := (Chip.new.registers.set 2 30).set 3 7 }

/-- Reading of the cell `screen[r][c]`, when it exists. -/
def pixelAt (scr : List (List Nat)) (r c : Nat) : Option Nat :=
  scr[r]? >>= fun row => row[c]?

/-- XOR of `op.2.2` into the cell `screen[op.1][op.2.1]`, when it exists. -/
def xorCell (scr : List (List Nat)) (op : Nat × Nat × Nat) : List (List Nat) :=
  match scr[op.1]? with
  | none => scr
  | some row =>
    match row[op.2.1]? with
    | none => scr
    | some cell => scr.set op.1 (row.set op.2.1 (op.2.2 ^^^ cell))

/-- The cells `op_dxyn` XORs while it handles row `j`, in order, for column
register value `vx`, row register value `vy` and memory `mem`. -/
def rowOps (mem : List Nat) (vx vy j : Nat) : List (Nat × Nat × Nat) :=
  (List.range 8).map fun bit =>
    (((vy + j) % SCREEN_HEIGHT) % 256, ((vx + j) % SCREEN_WIDTH) % 256,
      (mem.getD j 0 >>> (7 - bit)) % 256)

/-- What a draw with `x, y ≠ 0xF` reads besides the screen, and never changes:
the memory and the two position registers. -/
def DrawFrame (mem : List Nat) (x y vx vy : Nat) (s : Chip) : Prop :=
  s.memory = mem ∧ s.registers[x]? = some vx ∧ s.registers[y]? = some vy

/-- Iterations of the body of `Chip::cycle`: `k` times fetch, then execute. -/
def cycles : Nat → Chip → Option Chip
  | 0, s => some s
  | k + 1, s => Chip.cycleBody s >>= cycles k

/-- A freshly constructed machine whose memory from `0x200` on holds the bytes
`prog` (the font area below `0x200` is the one of the constructor). -/
def loadProgram (prog : List Nat) : Chip :=
  { Chip.new with memory := Chip.new.memory.take 0x200 ++ prog }

/-- The program area filled with zero bytes, `0x200` to `0xFFF`. -/
def zeroProgram : List Nat := List.replicate 0xE00 0

/-- The class `Input` of `chip/keyboard/keyboard.h`: the members
`std::array<bool, 0x10> keyboard` and `std::array<byte, 0xFF> keymap`. -/
structure Input where
  keyboard : List Bool
  keymap : List Nat
deriving DecidableEq, Repr

/-- The default member initialisers of `Input`: `keyboard = {0}` and the 16 listed
entries of `keymap`, the remaining entries of the `0xFF`-element array being
value-initialised to `0`. -/
def Input.new : Input :=
  { keyboard := List.replicate 0x10 false,
    keymap := [0x78, 0x31, 0x32, 0x33, 0x71, 0x77, 0x65, 0x61,
               0x73, 0x64, 0x7a, 0x63, 0x34, 0x72, 0x66, 0x76]
              ++ List.replicate (0xFF - 16) 0 }

/-- The method `Input::operator[]`: `keyboard.at(index)`; `none` stands for
`std::out_of_range`. -/
def Input.get (o : Input) (index : Nat) : Option Bool :=
  o.keyboard[index]?

/-- The method `Input::is_pressed`: `keyboard.at(keymap.at(key))`; `none` stands
for `std::out_of_range`. -/
def Input.is_pressed (o : Input) (key : Nat) : Option Bool := do
  let k ← o.keymap[key]?
  o.keyboard[k]?

/-- The method `Input::set_key`: `keyboard[index] = state`. -/
def Input.set_key (o : Input) (index : Nat) (state : Bool) : Option Input := do
  let keyboard ← store o.keyboard index state
  some { o with keyboard := keyboard }

/-- The key table of the specification: physical key code and logical slot. -/
def keyTable : List (Nat × Nat) :=
  [(0x78, 0x0), (0x31, 0x1), (0x32, 0x2), (0x33, 0x3), (0x71, 0x4), (0x77, 0x5),
   (0x65, 0x6), (0x61, 0x7), (0x73, 0x8), (0x64, 0x9), (0x7a, 0xA), (0x63, 0xB),
   (0x34, 0xC), (0x72, 0xD), (0x66, 0xE), (0x76, 0xF)]

/-- The result of a flag-defining handler is defined and leaves `0` or `1` in
`registers[0xF]`. -/
def flagIsBit (r : Option Chip) : Prop :=
  ∃ s', r = some s' ∧ (s'.registers[0xF]? = some 0 ∨ s'.registers[0xF]? = some 1)

/-- Everything `execute` is claimed to leave alone: the registers, `i`, the
memory and the stack. -/
def sameData (s s' : Chip) : Prop :=
  s'.registers = s.registers ∧ s'.i = s.i ∧ s'.memory = s.memory ∧ s'.stack = s.stack

/-- Machine with one return address on the stack: the constructed machine after
`op_2nnn(0x300)`. -/
def calledState : Chip :=
  { Chip.new with stack := Chip.new.stack.set 0 0x200, sp := 1, pc := 0x300 }

/-- What holds after `j` iterations of the cycle body on a machine started by
`loadProgram`: `pc` has advanced `j` instructions and is at most `0x1000`, the
stack index is still `0`, and the stack and memory keep their sizes. -/
def CycleInv (j : Nat) (s : Chip) : Prop :=
  s.pc = 0x200 + 2 * j ∧ j ≤ 1792 ∧ s.sp = 0 ∧ s.stack.length = 16 ∧
    s.memory.length = 0x1000

/-! ## Auxiliary facts on vectors and bit fields -/

theorem store_eq_some {α : Type} (v : List α) (k : Nat) (e : α) (h : k < v.length) :
    store v k e = some (v.set k e) := by
  simp [store, h]

theorem store_eq_none {α : Type} (v : List α) (k : Nat) (e : α) (h : v.length ≤ k) :
    store v k e = none := by
  simp [store, Nat.not_lt.mpr h]

theorem getElem?_some_of_lt {α : Type} (v : List α) (k : Nat) (h : k < v.length) :
    ∃ a, v[k]? = some a ∧ a ∈ v :=
  ⟨v[k], List.getElem?_eq_getElem h, List.getElem_mem h⟩

theorem and_0x000f (v : Nat) : v &&& 0x000f = v % 16 :=
  Nat.and_pow_two_sub_one_eq_mod v 4

theorem nibble_field (v k : Nat) : (v &&& (15 <<< k)) >>> k = v / 2 ^ k % 16 := by
  apply Nat.eq_of_testBit_eq
  intro j
  have h : v / 2 ^ k % 16 = (v >>> k) &&& (2 ^ 4 - 1) := by
    rw [Nat.and_pow_two_sub_one_eq_mod, Nat.shiftRight_eq_div_pow]
  rw [h]
  simp only [Nat.testBit_shiftRight, Nat.testBit_and, Nat.testBit_shiftLeft]
  simp

theorem and_0x00f0 (v : Nat) : (v &&& 0x00f0) >>> 4 = v / 16 % 16 :=
  nibble_field v 4

theorem and_0x0f00 (v : Nat) : (v &&& 0x0f00) >>> 8 = v / 256 % 16 :=
  nibble_field v 8

theorem and_0xf000 (v : Nat) : (v &&& 0xf000) >>> 12 = v / 4096 % 16 :=
  nibble_field v 12

theorem shl8_or (hi lo : Nat) (h : lo < 256) : (hi <<< 8) ||| lo = hi * 256 + lo := by
  rw [Nat.shiftLeft_eq, Nat.mul_comm]
  exact (Nat.mul_add_lt_is_or (i := 8) h hi).symm

/-- The constructed machine is a well-formed machine state. -/
theorem Chip.new_WF : Chip.new.WF :=
  { rt_lt := by decide, rd_lt := by decide, sp_lt := by decide, i_lt := by decide,
    pc_lt := by decide, stack_len := by decide, stack_lt := by decide,
    memory_len := by decide!, memory_lt := by decide!,
    registers_len := by decide, registers_lt := by decide,
    keyboard_len := by decide, screen_len := by decide,
    screen_row_len := by decide!, screen_lt := by decide! }

/-! ## The concrete two-cycle scenario -/

theorem twoCycles_scenario_view :
    (twoCycles scenario).map (fun s => (s.pc, s.registers[0]?)) = some (0x204, some 0) := by
  decide!

/-- C1, as stated, fails: after two iterations of the cycle body on the scenario
machine the state does not have `pc = 0x206` and `registers[0] = 5`. -/
theorem scenario_two_cycles_refuted :
    ¬ ∃ s, twoCycles scenario = some s ∧ s.pc = 0x206 ∧ s.registers[0]? = some 5 := by
  rintro ⟨s, hs, hpc, -⟩
  have h := twoCycles_scenario_view
  rw [hs] at h
  simp only [Option.map_some', Option.some.injEq, Prod.mk.injEq] at h
  omega

/-- C1, amended: the dispatcher routes neither `0x6005` nor `0x3005` to a
handler, so two iterations of the cycle body only advance `pc` twice, to
`0x204`, and leave `registers[0] = 0`; the handlers `op_6xkk(5, 0)` and
`op_3xkk(5, 0)` called directly do reach `pc = 0x206` with `registers[0] = 5`. -/
theorem scenario_two_cycles :
    (∃ s, twoCycles scenario = some s ∧ s.pc = 0x204 ∧ s.registers[0]? = some 0) ∧
    (∃ s, (Chip.op_6xkk scenario 0x05 0 >>= fun t => Chip.op_3xkk t 0x05 0) = some s ∧
      s.pc = 0x206 ∧ s.registers[0]? = some 5) := by
  constructor
  · have h := twoCycles_scenario_view
    obtain ⟨s, hs, hv⟩ := Option.map_eq_some'.mp h
    simp only [Prod.mk.injEq] at hv
    exact ⟨s, hs, hv.1, hv.2⟩
  · have h : (Chip.op_6xkk scenario 0x05 0 >>= fun t => Chip.op_3xkk t 0x05 0).map
        (fun s => (s.pc, s.registers[0]?)) = some (0x206, some 5) := by decide!
    obtain ⟨s, hs, hv⟩ := Option.map_eq_some'.mp h
    simp only [Prod.mk.injEq] at hv
    exact ⟨s, hs, hv.1, hv.2⟩

/-! ## Arithmetic handlers -/

/-- C2: add-reg carry law. For a well-formed state and register indices
`x ≠ 0xF`, `y`, with `a = registers[x]` and `b = registers[y]` before the call,
`op_8xy4(x, y)` returns, leaves `registers[x] = (a + b) mod 256`, sets
`registers[0xF]` to `1` when `a + b > 255` and to `0` otherwise, and advances
`pc` by `2` (as a 16-bit word). -/
theorem op_8xy4_carry_law (s : Chip) (x y : Nat) (hs : s.WF)
    (hx : x < 16) (hy : y < 16) (hxf : x ≠ 0xF) :
    ∃ a b s', s.registers[x]? = some a ∧ s.registers[y]? = some b ∧
      Chip.op_8xy4 s x y = some s' ∧
      s'.registers[x]? = some ((a + b) % 256) ∧
      s'.registers[0xF]? = some (if a + b > 255 then 1 else 0) ∧
      s'.pc = (s.pc + 2) % 65536 := by
  have hlen := hs.registers_len
  obtain ⟨a, ha, hma⟩ := getElem?_some_of_lt s.registers x (by omega)
  obtain ⟨b, hb, hmb⟩ := getElem?_some_of_lt s.registers y (by omega)
  have ha' := hs.registers_lt a hma
  have hb' := hs.registers_lt b hmb
  have hsum : (a + b) % 65536 = a + b := Nat.mod_eq_of_lt (by omega)
  refine ⟨a, b,
    { s with
      registers := (s.registers.set 0x0f (ofBool (decide (a + b > 255)))).set x ((a + b) % 256),
      pc := (s.pc + OP_OFFSET) % 65536 }, ha, hb, ?_, ?_, ?_, rfl⟩
  · simp [Chip.op_8xy4, ha, hb, store, hlen, hsum, hx]
  · simp [hlen, hx]
  · have hne : x ≠ 15 := hxf
    simp [List.getElem?_set, hlen, hne, ofBool]

theorem op_8xy4_carry_law_witness :
    ∃ a b s', Chip.new.registers[3]? = some a ∧ Chip.new.registers[0xF]? = some b ∧
      Chip.op_8xy4 Chip.new 3 0xF = some s' ∧
      s'.registers[3]? = some ((a + b) % 256) ∧
      s'.registers[0xF]? = some (if a + b > 255 then 1 else 0) ∧
      s'.pc = (Chip.new.pc + 2) % 65536 :=
  op_8xy4_carry_law Chip.new 3 0xF Chip.new_WF (by decide) (by decide) (by decide)

/-- C3 at the failing input `x = 0`, `y = 0xF`, `registers[0] = 5`,
`registers[0xF] = 3`: the flag is written first (`1`, since `5 > 3`) and then
read back as the subtrahend, so `op_8xy5` leaves `registers[0] = 4`, not
`(5 - 3) mod 256 = 2`. -/
theorem op_8xy5_subtracts_new_flag :
    subFlagState.registers[0]? = some 5 ∧ subFlagState.registers[0xF]? = some 3 ∧
    (Chip.op_8xy5 subFlagState 0 0xF).map (fun s => (s.registers[0]?, s.registers[0xF]?))
      = some (some 4, some 1) := by
  decide

/-- With `y ≠ 0xF` as well, `op_8xy5` does follow the no-borrow law: it returns,
leaves `registers[x] = (a - b) mod 256` and `registers[0xF] = 1` exactly when
`a > b`. -/
theorem op_8xy5_no_borrow_law (s : Chip) (x y : Nat) (hs : s.WF)
    (hx : x < 16) (hy : y < 16) (hxf : x ≠ 0xF) (hyf : y ≠ 0xF) :
    ∃ a b s', s.registers[x]? = some a ∧ s.registers[y]? = some b ∧
      Chip.op_8xy5 s x y = some s' ∧
      s'.registers[x]? = some (Int.toNat (((a : Int) - (b : Int)) % 256)) ∧
      s'.registers[0xF]? = some (if a > b then 1 else 0) := by
  have hlen := hs.registers_len
  obtain ⟨a, ha, -⟩ := getElem?_some_of_lt s.registers x (by omega)
  obtain ⟨b, hb, -⟩ := getElem?_some_of_lt s.registers y (by omega)
  have hx15 : x ≠ 15 := hxf
  have hy15 : y ≠ 15 := hyf
  refine ⟨a, b,
    { s with
      registers := (s.registers.set 0x0f (ofBool (decide (a > b)))).set x
        (Int.toNat (((a : Int) - (b : Int)) % 256)),
      pc := (s.pc + OP_OFFSET) % 65536 }, ha, hb, ?_, ?_, ?_⟩
  · have ha1 : (s.registers.set 0x0f (ofBool (decide (a > b))))[x]? = some a := by
      rw [List.getElem?_set_ne (Ne.symm hx15)]; exact ha
    have hb1 : (s.registers.set 0x0f (ofBool (decide (a > b))))[y]? = some b := by
      rw [List.getElem?_set_ne (Ne.symm hy15)]; exact hb
    simp only [Chip.op_8xy5, ha, hb, store, hlen, Option.bind_eq_bind, Option.some_bind]
    simp only [show (0x0f : Nat) < 16 by decide, if_true, Option.some_bind, ha1, hb1,
      List.length_set, hlen, hx]
  · simp [hlen, hx]
  · simp [List.getElem?_set, hlen, hx15, ofBool]

/-! ## Call and return -/

/-- C4 at the failing input: on the constructed machine (`pc = 0x200`,
`sp = 0`), `op_2nnn(0x300)` followed by `op_00ee()` returns with `sp = 0` and
`pc = 0x200`, the address of the call itself, not `0x202`. -/
theorem call_return_lands_on_call :
    Chip.new.pc = 0x200 ∧ Chip.new.sp = 0 ∧
    (Chip.op_2nnn Chip.new 0x300 >>= Chip.op_00ee).map (fun s => (s.pc, s.sp))
      = some (0x200, 0) := by
  decide!

/-- In every well-formed state with `sp < 16`, call then return restores `sp`
and puts `pc` back on the call instruction: the pushed address is `pc` itself
and neither handler adds the instruction width. -/
theorem call_return_general (s : Chip) (nnn : Nat) (hs : s.WF) (hsp : s.sp < 16) :
    ∃ s', (Chip.op_2nnn s nnn >>= Chip.op_00ee) = some s' ∧ s'.pc = s.pc ∧ s'.sp = s.sp := by
  have hlen := hs.stack_len
  have h1 : (s.sp + 1) % 256 = s.sp + 1 := Nat.mod_eq_of_lt (by omega)
  have h2 : (s.sp + 1 + 256 - 1) % 256 = s.sp := by omega
  have h3 : (s.stack.set s.sp s.pc)[s.sp]? = some s.pc := by
    simp [hlen, hsp]
  refine ⟨{ s with stack := s.stack.set s.sp s.pc }, ?_, rfl, rfl⟩
  simp only [Chip.op_2nnn, Chip.op_00ee, store, hlen, hsp, h1, h2, h3, if_true,
    Option.bind_eq_bind, Option.some_bind]

/-! ## The dispatcher and fetch -/

theorem execute_default_eq (s : Chip) (opcode : Nat) (hop : opcode < 65536)
    (h1 : opcode ≠ 0x00E0) (h2 : opcode ≠ 0x00EE) :
    Chip.execute s opcode = some { s with pc := (s.pc + 2) % 65536 } := by
  unfold Chip.execute
  simp only [and_0x000f, and_0x00f0, and_0x0f00, and_0xf000]
  rw [if_neg (by omega), if_neg (by omega)]
  rfl

/-- C9: for every machine state and every 16-bit instruction word other than
`0x00E0` and `0x00EE`, `execute` returns, leaves memory, registers, `i`, stack,
`sp`, screen and keyboard (and the timers) unchanged and sets `pc` to
`(pc + 2) mod 2^16`. -/
theorem execute_default_advance (s : Chip) (opcode : Nat) (hop : opcode < 65536)
    (h1 : opcode ≠ 0x00E0) (h2 : opcode ≠ 0x00EE) :
    ∃ s', Chip.execute s opcode = some s' ∧
      s'.memory = s.memory ∧ s'.registers = s.registers ∧ s'.i = s.i ∧
      s'.stack = s.stack ∧ s'.sp = s.sp ∧ s'.screen = s.screen ∧
      s'.keyboard = s.keyboard ∧ s'.rt = s.rt ∧ s'.rd = s.rd ∧
      s'.pc = (s.pc + 2) % 65536 :=
  ⟨_, execute_default_eq s opcode hop h1 h2, rfl, rfl, rfl, rfl, rfl, rfl, rfl, rfl, rfl, rfl⟩

theorem execute_default_advance_witness :
    ∃ s', Chip.execute scenario 0x6005 = some s' ∧
      s'.memory = scenario.memory ∧ s'.registers = scenario.registers ∧ s'.i = scenario.i ∧
      s'.stack = scenario.stack ∧ s'.sp = scenario.sp ∧ s'.screen = scenario.screen ∧
      s'.keyboard = scenario.keyboard ∧ s'.rt = scenario.rt ∧ s'.rd = scenario.rd ∧
      s'.pc = (scenario.pc + 2) % 65536 :=
  execute_default_advance scenario 0x6005 (by decide) (by decide) (by decide)

/-- C10: in every well-formed machine state with `pc + 1 < 0x1000`, `fetch`
returns the big-endian word `memory[pc] * 256 + memory[pc + 1]` and leaves the
whole machine state, `pc` included, as it was. -/
theorem fetch_big_endian (s : Chip) (hs : s.WF) (hpc : s.pc + 1 < 0x1000) :
    ∃ hi lo, s.memory[s.pc]? = some hi ∧ s.memory[s.pc + 1]? = some lo ∧
      Chip.fetch s = some (hi * 256 + lo, s) := by
  have hlen := hs.memory_len
  obtain ⟨hi, hhi, hmhi⟩ := getElem?_some_of_lt s.memory s.pc (by omega)
  obtain ⟨lo, hlo, hmlo⟩ := getElem?_some_of_lt s.memory (s.pc + 1) (by omega)
  have hhi' := hs.memory_lt hi hmhi
  have hlo' := hs.memory_lt lo hmlo
  refine ⟨hi, lo, hhi, hlo, ?_⟩
  have hword : ((hi <<< 8) ||| lo) % 65536 = hi * 256 + lo := by
    rw [shl8_or hi lo hlo']
    exact Nat.mod_eq_of_lt (by omega)
  simp [Chip.fetch, hhi, hlo, hword]

theorem scenario_WF : scenario.WF :=
  { rt_lt := by decide, rd_lt := by decide, sp_lt := by decide, i_lt := by decide,
    pc_lt := by decide, stack_len := by decide, stack_lt := by decide,
    memory_len := by decide!, memory_lt := by decide!,
    registers_len := by decide, registers_lt := by decide,
    keyboard_len := by decide, screen_len := by decide,
    screen_row_len := by decide!, screen_lt := by decide! }

theorem fetch_big_endian_witness :
    scenario.pc + 1 < 0x1000 ∧
    ∃ hi lo, scenario.memory[scenario.pc]? = some hi ∧
      scenario.memory[scenario.pc + 1]? = some lo ∧
      Chip.fetch scenario = some (hi * 256 + lo, scenario) :=
  ⟨by decide, fetch_big_endian scenario scenario_WF (by decide)⟩

/-! ## Draw -/

/-- C5 at the failing input, `op_dxyn(0, 1, 1)` on the constructed machine
(`i = 0`, clear screen, all registers `0`, `memory[0] = 0xF0`,
`memory[1] = 0x90`): the loop runs for `j = 0` and `j = 1`, every bit of a row
lands in the one cell `screen[j][j]`, and the unmasked shifts `sprite >> (7 - bit)`
are XOR-ed into it. The result has `screen[0][0] = 160`, `screen[0][1] = 0`,
`screen[1][1] = 224` and `registers[0xF] = 127`, where the reference definition
gives `screen[0][0..3] = 1`, row 1 untouched and `registers[0xF] = 0`. -/
theorem op_dxyn_constructed_machine :
    Chip.new.i = 0 ∧ Chip.new.memory[0]? = some 0xF0 ∧ Chip.new.memory[1]? = some 0x90 ∧
    (Chip.op_dxyn Chip.new 0 1 1).map
        (fun s => ((s.screen.take 3).map (List.take 3), s.registers[0xF]?))
      = some ([[160, 0, 0], [0, 224, 0], [0, 0, 0]], some 127) := by
  decide!

/-- C6 at the failing input, `op_dxyn(0, 1, 0)` with `registers[0] = 40`,
`registers[1] = 0`, `i = 0`: the first draw already addresses
`screen[0][40]`, outside the 32 cells of `screen[0]`, so there is no screen
after the two draws to compare with the one before. -/
theorem op_dxyn_twice_undefined :
    (Chip.op_dxyn column40State 0 1 0 >>= fun s => Chip.op_dxyn s 0 1 0) = none := by
  decide!

/-- C7 at the failing input, `op_dxyn(0, 1, 1)` with `registers[0] = 60`,
`registers[1] = 0`, `i = 0x200`, `memory[0x200] = 0xFF` and a clear screen: the
loop `for (j = i; j <= n; j++)` has no iteration, and every cell of the screen
is still `0` after the draw, although all eight bits of the sprite are set. -/
theorem op_dxyn_right_edge_draws_nothing :
    edgeState.memory[edgeState.i]? = some 0xFF ∧
    edgeState.registers[0]? = some 60 ∧ edgeState.registers[1]? = some 0 ∧
    edgeState.screen = List.replicate 64 (List.replicate 32 0) ∧
    (Chip.op_dxyn edgeState 0 1 1).map (fun s => s.screen)
      = some (List.replicate 64 (List.replicate 32 0)) := by
  decide!

/-- C8 at the failing input, `op_dxyn(2, 3, 5)` with `registers[2] = 30`,
`registers[3] = 7`, `i = 0`, on the screen of the constructor (64 outer vectors
of 32 cells): the rows `j = 0` and `j = 1` address `screen[7][30]` and
`screen[8][31]`, inside the screen, and the row `j = 2` addresses `screen[9][32]`
with `cx = (30 + 2) % 64 = 32`, which is not below the inner size `32`; the
handler takes the out-of-bounds branch. -/
theorem op_dxyn_column_out_of_bounds :
    column30State.screen.map List.length = List.replicate 64 32 ∧
    ((List.range' 0 2).foldlM (Chip.drawRow 2 3) column30State).isSome = true ∧
    (column30State.registers[2]?).map (fun vx => (vx + 2) % SCREEN_WIDTH) = some 32 ∧
    (column30State.registers[3]?).map (fun vy => (vy + 2) % SCREEN_HEIGHT) = some 9 ∧
    ((List.range' 0 2).foldlM (Chip.drawRow 2 3) column30State >>=
      fun s => Chip.drawRow 2 3 s 2) = none ∧
    Chip.op_dxyn column30State 2 3 5 = none := by
  decide!

/-! ## Draw twice, wherever the draw stays inside the screen -/

theorem screen_ext (a b : List (List Nat)) (hl : a.length = b.length)
    (h : ∀ r c, pixelAt a r c = pixelAt b r c) : a = b := by
  apply List.ext_getElem hl
  intro r h1 h2
  apply List.ext_getElem?
  intro c
  have hrc := h r c
  simpa [pixelAt, List.getElem?_eq_getElem h1, List.getElem?_eq_getElem h2] using hrc

theorem xorCell_length (scr : List (List Nat)) (op : Nat × Nat × Nat) :
    (xorCell scr op).length = scr.length := by
  unfold xorCell
  split
  · rfl
  · split
    · rfl
    · simp

theorem xor_swap (a b v : Nat) : b ^^^ (a ^^^ v) = a ^^^ (b ^^^ v) := by
  rw [← Nat.xor_assoc, ← Nat.xor_assoc, Nat.xor_comm b a]

theorem xor_cancel (a v : Nat) : a ^^^ (a ^^^ v) = v := by
  rw [← Nat.xor_assoc, Nat.xor_self, Nat.zero_xor]

theorem pixelAt_xorCell (scr : List (List Nat)) (op : Nat × Nat × Nat) (r c : Nat) :
    pixelAt (xorCell scr op) r c =
      if r = op.1 ∧ c = op.2.1 then (pixelAt scr r c).map (fun v => op.2.2 ^^^ v)
      else pixelAt scr r c := by
  obtain ⟨cy, cx, p⟩ := op
  unfold xorCell
  simp only
  cases hrow : scr[cy]? with
  | none =>
    by_cases hr : r = cy ∧ c = cx
    · obtain ⟨rfl, rfl⟩ := hr
      simp [pixelAt, hrow]
    · simp [hr]
  | some row =>
    have hcy : cy < scr.length := by
      by_contra hge
      rw [List.getElem?_eq_none (Nat.le_of_not_lt hge)] at hrow
      exact Option.noConfusion hrow
    cases hcell : row[cx]? with
    | none =>
      by_cases hr : r = cy ∧ c = cx
      · obtain ⟨rfl, rfl⟩ := hr
        simp [pixelAt, hrow, hcell]
      · simp [hr, hcell]
    | some cell =>
      have hcx : cx < row.length := by
        by_contra hge
        rw [List.getElem?_eq_none (Nat.le_of_not_lt hge)] at hcell
        exact Option.noConfusion hcell
      by_cases hr : r = cy
      · subst hr
        by_cases hc : c = cx
        · subst hc
          simp [pixelAt, hrow, hcell, hcy, hcx]
        · have hc' : ¬ cx = c := fun e => hc e.symm
          simp [pixelAt, hrow, hcell, hcy, hc, hc', List.getElem?_set]
      · have hr' : ¬ cy = r := fun e => hr e.symm
        simp [pixelAt, hcell, hr, hr', List.getElem?_set]

theorem xorCell_comm (scr : List (List Nat)) (a b : Nat × Nat × Nat) :
    xorCell (xorCell scr a) b = xorCell (xorCell scr b) a := by
  apply screen_ext
  · simp [xorCell_length]
  · intro r c
    simp only [pixelAt_xorCell]
    generalize pixelAt scr r c = v
    split_ifs <;> cases v <;> simp [xor_swap]

theorem xorCell_twice (scr : List (List Nat)) (a : Nat × Nat × Nat) :
    xorCell (xorCell scr a) a = scr := by
  apply screen_ext
  · simp [xorCell_length]
  · intro r c
    simp only [pixelAt_xorCell]
    generalize pixelAt scr r c = v
    split_ifs <;> cases v <;> simp [xor_cancel]

theorem foldl_xorCell_comm (ops : List (Nat × Nat × Nat)) (scr : List (List Nat))
    (a : Nat × Nat × Nat) :
    ops.foldl xorCell (xorCell scr a) = xorCell (ops.foldl xorCell scr) a := by
  induction ops generalizing scr with
  | nil => rfl
  | cons b ops ih =>
    simp only [List.foldl_cons]
    rw [xorCell_comm scr a b, ih]

theorem foldl_xorCell_twice (ops : List (Nat × Nat × Nat)) (scr : List (List Nat)) :
    ops.foldl xorCell (ops.foldl xorCell scr) = scr := by
  induction ops generalizing scr with
  | nil => rfl
  | cons a ops ih =>
    simp only [List.foldl_cons]
    rw [foldl_xorCell_comm ops scr a, xorCell_twice, ih]

theorem store_some_iff {α : Type} (v w : List α) (k : Nat) (e : α)
    (h : store v k e = some w) : k < v.length ∧ w = v.set k e := by
  unfold store at h
  split at h
  · next hk => exact ⟨hk, (Option.some.inj h).symm⟩
  · exact Option.noConfusion h

theorem flatten_map_singleton {α β : Type} (h : α → β) (l : List α) :
    (l.map fun a => [h a]).flatten = l.map h := by
  induction l with
  | nil => rfl
  | cons a l ih => simp [ih]

theorem drawBit_screen (mem : List Nat) (x y vx vy j cy sprite bit : Nat) (s s' : Chip)
    (hx : x ≠ 0xF) (hy : y ≠ 0xF) (hf : DrawFrame mem x y vx vy s)
    (h : Chip.drawBit x j cy sprite s bit = some s') :
    DrawFrame mem x y vx vy s' ∧ s'.i = s.i ∧ s'.pc = s.pc ∧
      s'.screen = xorCell s.screen
        (cy, ((vx + j) % SCREEN_WIDTH) % 256, (sprite >>> (7 - bit)) % 256) := by
  obtain ⟨hmem, hvx, hvy⟩ := hf
  simp only [Chip.drawBit, hvx, Option.bind_eq_bind, Option.some_bind] at h
  obtain ⟨row, hrow, h⟩ := Option.bind_eq_some.mp h
  obtain ⟨cell, hcell, h⟩ := Option.bind_eq_some.mp h
  obtain ⟨vf, -, h⟩ := Option.bind_eq_some.mp h
  obtain ⟨regs, hregs, h⟩ := Option.bind_eq_some.mp h
  obtain ⟨row1, hrow1, h⟩ := Option.bind_eq_some.mp h
  obtain ⟨scr, hscr, h⟩ := Option.bind_eq_some.mp h
  obtain ⟨-, rfl⟩ := store_some_iff _ _ _ _ hregs
  obtain ⟨-, rfl⟩ := store_some_iff _ _ _ _ hrow1
  obtain ⟨-, rfl⟩ := store_some_iff _ _ _ _ hscr
  have hs' := (Option.some.inj h).symm
  subst hs'
  refine ⟨⟨hmem, ?_, ?_⟩, rfl, rfl, ?_⟩
  · show (s.registers.set 0x0f _)[x]? = some vx
    rw [List.getElem?_set_ne (Ne.symm hx)]; exact hvx
  · show (s.registers.set 0x0f _)[y]? = some vy
    rw [List.getElem?_set_ne (Ne.symm hy)]; exact hvy
  · show s.screen.set cy _ = _
    simp only [xorCell, hrow, hcell]

theorem foldlM_xorCell {β : Type} (f : Chip → β → Option Chip)
    (g : β → List (Nat × Nat × Nat)) (Inv : Chip → Prop)
    (step : ∀ s b s', Inv s → f s b = some s' →
      Inv s' ∧ s'.i = s.i ∧ s'.pc = s.pc ∧ s'.screen = (g b).foldl xorCell s.screen)
    (l : List β) (s s' : Chip) (hinv : Inv s) (h : l.foldlM f s = some s') :
    Inv s' ∧ s'.i = s.i ∧ s'.pc = s.pc ∧
      s'.screen = (l.map g).flatten.foldl xorCell s.screen := by
  induction l generalizing s with
  | nil =>
    simp only [List.foldlM_nil, Option.pure_def, Option.some.injEq] at h
    subst h
    exact ⟨hinv, rfl, rfl, rfl⟩
  | cons b l ih =>
    simp only [List.foldlM_cons, Option.bind_eq_bind] at h
    obtain ⟨t, ht, h⟩ := Option.bind_eq_some.mp h
    obtain ⟨hinv1, hi1, hpc1, hscr1⟩ := step s b t hinv ht
    obtain ⟨hinv2, hi2, hpc2, hscr2⟩ := ih t hinv1 h
    refine ⟨hinv2, hi2.trans hi1, hpc2.trans hpc1, ?_⟩
    rw [hscr2, hscr1, List.map_cons, List.flatten_cons, List.foldl_append]

theorem drawRow_screen (mem : List Nat) (x y vx vy j : Nat) (s s' : Chip)
    (hx : x ≠ 0xF) (hy : y ≠ 0xF) (hf : DrawFrame mem x y vx vy s)
    (h : Chip.drawRow x y s j = some s') :
    DrawFrame mem x y vx vy s' ∧ s'.i = s.i ∧ s'.pc = s.pc ∧
      s'.screen = (rowOps mem vx vy j).foldl xorCell s.screen := by
  have hf' := hf
  obtain ⟨hmem, hvx, hvy⟩ := hf
  simp only [Chip.drawRow, hvy, Option.bind_eq_bind, Option.some_bind] at h
  obtain ⟨sprite, hsprite, h⟩ := Option.bind_eq_some.mp h
  have hget : mem.getD j 0 = sprite := by
    rw [← hmem, List.getD_eq_getElem?_getD, hsprite]; rfl
  have key := foldlM_xorCell (Chip.drawBit x j ((vy + j) % SCREEN_HEIGHT % 256) sprite)
    (fun bit => [((vy + j) % SCREEN_HEIGHT % 256, ((vx + j) % SCREEN_WIDTH) % 256,
      (sprite >>> (7 - bit)) % 256)])
    (DrawFrame mem x y vx vy)
    (fun t b t' ht hstep => by
      simpa using drawBit_screen mem x y vx vy j _ sprite b t t' hx hy ht hstep)
    (List.range 8) s s' hf' h
  obtain ⟨h1, h2, h3, h4⟩ := key
  refine ⟨h1, h2, h3, ?_⟩
  rw [h4, flatten_map_singleton, rowOps, hget]

/-- The screen after `op_dxyn`, whenever it returns: the XOR folds of the rows
`j = i, ..., n`, applied to the screen before. -/
theorem op_dxyn_screen (mem : List Nat) (x y vx vy n : Nat) (s s' : Chip)
    (hx : x ≠ 0xF) (hy : y ≠ 0xF) (hf : DrawFrame mem x y vx vy s)
    (h : Chip.op_dxyn s x y n = some s') :
    DrawFrame mem x y vx vy s' ∧ s'.i = s.i ∧
      s'.screen = ((List.range' s.i (n + 1 - s.i)).map (rowOps mem vx vy)).flatten.foldl
        xorCell s.screen := by
  obtain ⟨hmem, hvx, hvy⟩ := hf
  simp only [Chip.op_dxyn, Option.bind_eq_bind] at h
  obtain ⟨regs, hregs, hrest⟩ := Option.bind_eq_some.mp h
  obtain ⟨-, rfl⟩ := store_some_iff _ _ _ _ hregs
  obtain ⟨t, ht, hlast⟩ := Option.bind_eq_some.mp hrest
  have hs' := (Option.some.inj hlast).symm
  subst hs'
  have hf0 : DrawFrame mem x y vx vy { s with registers := s.registers.set 0x0f 0 } := by
    refine ⟨hmem, ?_, ?_⟩
    · show (s.registers.set 0x0f 0)[x]? = some vx
      rw [List.getElem?_set_ne (Ne.symm hx)]; exact hvx
    · show (s.registers.set 0x0f 0)[y]? = some vy
      rw [List.getElem?_set_ne (Ne.symm hy)]; exact hvy
  obtain ⟨h1, h2, -, h4⟩ := foldlM_xorCell (Chip.drawRow x y) (rowOps mem vx vy)
    (DrawFrame mem x y vx vy)
    (fun a b a' ha hstep => drawRow_screen mem x y vx vy b a a' hx hy ha hstep)
    _ _ t hf0 ht
  exact ⟨h1, h2, h4⟩

/-- Draw twice, conditional form: for register indices `x, y` different from
`0xF`, whenever two successive calls `op_dxyn(x, y, n)` both stay inside the
screen (both return), the screen after the second call is the screen before
the first. -/
theorem op_dxyn_twice_restores (s s1 s2 : Chip) (x y n : Nat) (hs : s.WF)
    (hx : x < 16) (hy : y < 16) (hxf : x ≠ 0xF) (hyf : y ≠ 0xF)
    (h1 : Chip.op_dxyn s x y n = some s1) (h2 : Chip.op_dxyn s1 x y n = some s2) :
    s2.screen = s.screen := by
  have hlen := hs.registers_len
  obtain ⟨vx, hvx, -⟩ := getElem?_some_of_lt s.registers x (by omega)
  obtain ⟨vy, hvy, -⟩ := getElem?_some_of_lt s.registers y (by omega)
  obtain ⟨hf1, hi1, hscr1⟩ :=
    op_dxyn_screen s.memory x y vx vy n s s1 hxf hyf ⟨rfl, hvx, hvy⟩ h1
  obtain ⟨-, -, hscr2⟩ := op_dxyn_screen s.memory x y vx vy n s1 s2 hxf hyf hf1 h2
  rw [hscr2, hscr1, hi1, foldl_xorCell_twice]

theorem op_dxyn_twice_restores_witness :
    ∃ s1 s2, Chip.op_dxyn Chip.new 0 1 1 = some s1 ∧ Chip.op_dxyn s1 0 1 1 = some s2 ∧
      s2.screen = Chip.new.screen := by
  have h : (Chip.op_dxyn Chip.new 0 1 1 >>= fun s => Chip.op_dxyn s 0 1 1).isSome = true := by
    decide!
  obtain ⟨s2, hs2⟩ := Option.isSome_iff_exists.mp h
  obtain ⟨s1, hs1, hs12⟩ := Option.bind_eq_some.mp hs2
  exact ⟨s1, s2, hs1, hs12,
    op_dxyn_twice_restores Chip.new s1 s2 0 1 1 Chip.new_WF (by decide) (by decide)
      (by decide) (by decide) hs1 hs12⟩

/-! ## The constructed machine -/

theorem new_memory_eq : Chip.new.memory = FONT_SET ++ List.replicate (0x1000 - 80) 0 := by
  decide!

/-- C17: the constructed machine has `pc = 0x200`, `sp = 0`, `i = 0`, sixteen
registers and sixteen stack slots, all `0`, and a memory of exactly 4096 bytes
whose first 80 bytes are the 80 bytes of `FONT_SET` (16 glyphs of 5 bytes) and
whose bytes `80..4095` are `0`. -/
theorem constructor_initial_state :
    Chip.new.pc = 0x200 ∧ Chip.new.sp = 0 ∧ Chip.new.i = 0 ∧
    Chip.new.registers = List.replicate 16 0 ∧ Chip.new.stack = List.replicate 16 0 ∧
    Chip.new.memory.length = 4096 ∧ FONT_SET.length = 80 ∧ FONT_SET.length = 16 * 5 ∧
    (∀ k, k < 80 → Chip.new.memory[k]? = FONT_SET[k]?) ∧
    (∀ k, 80 ≤ k → k < 4096 → Chip.new.memory[k]? = some 0) := by
  refine ⟨rfl, rfl, rfl, rfl, rfl, by decide!, by decide, by decide, ?_, ?_⟩
  · intro k hk
    rw [new_memory_eq, List.getElem?_append_left (by simpa using hk)]
  · intro k h1 h2
    have hlen : FONT_SET.length = 80 := by decide
    rw [new_memory_eq, List.getElem?_append_right (by omega), hlen,
      List.getElem?_replicate]
    simp; omega


/-! ## The flag register after the flag-defining handlers -/

theorem and_0x01 (v : Nat) : v &&& 0x01 = v % 2 :=
  Nat.and_pow_two_sub_one_eq_mod v 1

theorem and_0x80 (v : Nat) : (v &&& 0x80) >>> 7 = v / 128 % 2 := by
  apply Nat.eq_of_testBit_eq
  intro j
  have h : v / 128 % 2 = (v >>> 7) &&& (2 ^ 1 - 1) := by
    rw [Nat.and_pow_two_sub_one_eq_mod, Nat.shiftRight_eq_div_pow]
  have h80 : (0x80 : Nat) = 1 <<< 7 := by decide
  rw [h, h80]
  simp only [Nat.testBit_shiftRight, Nat.testBit_and, Nat.testBit_shiftLeft]
  simp

theorem ofBool_bit (b : Bool) : ofBool b = 0 ∨ ofBool b = 1 := by
  cases b
  · exact Or.inl rfl
  · exact Or.inr rfl

theorem getElem?_set_flag (regs : List Nat) (x f : Nat) (hx : x ≠ 15) :
    (regs.set 0x0f f)[x]? = regs[x]? :=
  List.getElem?_set_ne (Ne.symm hx)

theorem flag_kept (regs : List Nat) (x f v : Nat) (hlen : regs.length = 16) (hx : x ≠ 15) :
    ((regs.set 0x0f f).set x v)[0xF]? = some f := by
  rw [List.getElem?_set_ne hx]
  simp [hlen]

theorem flagIsBit_of (r : Option Chip) (s' : Chip) (f : Nat) (h : r = some s')
    (hf : s'.registers[0xF]? = some f) (hb : f = 0 ∨ f = 1) : flagIsBit r := by
  refine ⟨s', h, ?_⟩
  rcases hb with h0 | h1
  · exact Or.inl (by rw [hf, h0])
  · exact Or.inr (by rw [hf, h1])

theorem op_8xy4_flag (s : Chip) (x y : Nat) (hs : s.WF) (hx : x < 16) (hy : y < 16)
    (hxf : x ≠ 0xF) : flagIsBit (Chip.op_8xy4 s x y) := by
  have hlen := hs.registers_len
  obtain ⟨a, ha, -⟩ := getElem?_some_of_lt s.registers x (by omega)
  obtain ⟨b, hb, -⟩ := getElem?_some_of_lt s.registers y (by omega)
  refine flagIsBit_of _
    { s with
      registers := (s.registers.set 0x0f (ofBool (decide ((a + b) % 65536 > 255)))).set x
        ((a + b) % 65536 % 256),
      pc := (s.pc + OP_OFFSET) % 65536 } _ ?_ (flag_kept _ _ _ _ hlen hxf) (ofBool_bit _)
  simp only [Chip.op_8xy4, ha, hb, store, hlen, List.length_set, hx,
    show (0x0f : Nat) < 16 by decide, if_true, Option.bind_eq_bind, Option.some_bind]

theorem op_8xy5_flag (s : Chip) (x y : Nat) (hs : s.WF) (hx : x < 16) (hy : y < 16)
    (hxf : x ≠ 0xF) : flagIsBit (Chip.op_8xy5 s x y) := by
  have hlen := hs.registers_len
  obtain ⟨a, ha, -⟩ := getElem?_some_of_lt s.registers x (by omega)
  obtain ⟨b, hb, -⟩ := getElem?_some_of_lt s.registers y (by omega)
  obtain ⟨a1, ha1, -⟩ := getElem?_some_of_lt (s.registers.set 0x0f (ofBool (decide (a > b)))) x
    (by rw [List.length_set]; omega)
  obtain ⟨b1, hb1, -⟩ := getElem?_some_of_lt (s.registers.set 0x0f (ofBool (decide (a > b)))) y
    (by rw [List.length_set]; omega)
  refine flagIsBit_of _
    { s with
      registers := (s.registers.set 0x0f (ofBool (decide (a > b)))).set x
        (Int.toNat (((a1 : Int) - (b1 : Int)) % 256)),
      pc := (s.pc + OP_OFFSET) % 65536 } _ ?_ (flag_kept _ _ _ _ hlen hxf) (ofBool_bit _)
  simp only [Chip.op_8xy5, ha, hb, store, hlen, show (0x0f : Nat) < 16 by decide, if_true,
    Option.bind_eq_bind, Option.some_bind, ha1, hb1, List.length_set, hx]

theorem op_8xy7_flag (s : Chip) (x y : Nat) (hs : s.WF) (hx : x < 16) (hy : y < 16)
    (hxf : x ≠ 0xF) : flagIsBit (Chip.op_8xy7 s x y) := by
  have hlen := hs.registers_len
  obtain ⟨a, ha, -⟩ := getElem?_some_of_lt s.registers x (by omega)
  obtain ⟨b, hb, -⟩ := getElem?_some_of_lt s.registers y (by omega)
  obtain ⟨a1, ha1, -⟩ := getElem?_some_of_lt (s.registers.set 0x0f (ofBool (decide (b > a)))) x
    (by rw [List.length_set]; omega)
  obtain ⟨b1, hb1, -⟩ := getElem?_some_of_lt (s.registers.set 0x0f (ofBool (decide (b > a)))) y
    (by rw [List.length_set]; omega)
  refine flagIsBit_of _
    { s with
      registers := (s.registers.set 0x0f (ofBool (decide (b > a)))).set x
        (Int.toNat (((b1 : Int) - (a1 : Int)) % 256)),
      pc := (s.pc + OP_OFFSET) % 65536 } _ ?_ (flag_kept _ _ _ _ hlen hxf) (ofBool_bit _)
  simp only [Chip.op_8xy7, ha, hb, store, hlen, show (0x0f : Nat) < 16 by decide, if_true,
    Option.bind_eq_bind, Option.some_bind, ha1, hb1, List.length_set, hx]

theorem op_8xye_flag (s : Chip) (x : Nat) (hs : s.WF) (hx : x < 16) (hxf : x ≠ 0xF) :
    flagIsBit (Chip.op_8xye s x) := by
  have hlen := hs.registers_len
  obtain ⟨a, ha, -⟩ := getElem?_some_of_lt s.registers x (by omega)
  obtain ⟨a1, ha1, -⟩ := getElem?_some_of_lt (s.registers.set 0x0f ((a &&& 0x80) >>> 7)) x
    (by rw [List.length_set]; omega)
  refine flagIsBit_of _
    { s with
      registers := (s.registers.set 0x0f ((a &&& 0x80) >>> 7)).set x ((a1 <<< 1) % 256),
      pc := (s.pc + OP_OFFSET) % 65536 } _ ?_ (flag_kept _ _ _ _ hlen hxf)
    (by rw [and_0x80]; omega)
  simp only [Chip.op_8xye, ha, store, hlen, show (0x0f : Nat) < 16 by decide, if_true,
    Option.bind_eq_bind, Option.some_bind, ha1, List.length_set, hx]

theorem op_8xy6_flag (s : Chip) (x : Nat) (hs : s.WF) (hx : x < 16) :
    flagIsBit (Chip.op_8xy6 s x) := by
  have hlen := hs.registers_len
  obtain ⟨a, ha, -⟩ := getElem?_some_of_lt s.registers x (by omega)
  have hbit : a &&& 0x01 = 0 ∨ a &&& 0x01 = 1 := by rw [and_0x01]; omega
  by_cases hxf : x = 0xF
  · subst hxf
    have ha1 : (s.registers.set 0x0f (a &&& 0x01))[0xF]? = some (a &&& 0x01) := by
      simp [hlen]
    have hz : (a &&& 0x01) >>> 1 = 0 := by
      rw [and_0x01, Nat.shiftRight_eq_div_pow]; omega
    refine flagIsBit_of _
      { s with
        registers := (s.registers.set 0x0f (a &&& 0x01)).set 0xF ((a &&& 0x01) >>> 1),
        pc := (s.pc + OP_OFFSET) % 65536 } 0 ?_ ?_ (Or.inl rfl)
    · simp only [Chip.op_8xy6, ha, store, hlen, show (0x0f : Nat) < 16 by decide, if_true,
        Option.bind_eq_bind, Option.some_bind, ha1, List.length_set]
    · show ((s.registers.set 0x0f (a &&& 0x01)).set 0xF ((a &&& 0x01) >>> 1))[0xF]? = some 0
      rw [hz]; simp [hlen]
  · obtain ⟨a1, ha1, -⟩ := getElem?_some_of_lt (s.registers.set 0x0f (a &&& 0x01)) x
      (by rw [List.length_set]; omega)
    refine flagIsBit_of _
      { s with
        registers := (s.registers.set 0x0f (a &&& 0x01)).set x (a1 >>> 1),
        pc := (s.pc + OP_OFFSET) % 65536 } _ ?_ (flag_kept _ _ _ _ hlen hxf) hbit
    simp only [Chip.op_8xy6, ha, store, hlen, show (0x0f : Nat) < 16 by decide, if_true,
      Option.bind_eq_bind, Option.some_bind, ha1, List.length_set, hx]

/-- C12, as stated, fails at `x = 0xF`: on the machine with `registers[0] = 5`
and `registers[0xF] = 3`, `op_8xy4(0xF, 0)` writes the carry `0` and then the
sum `3 + 5` into the same register, so the handler returns with
`registers[0xF] = 8`, neither `0` nor `1`. -/
theorem flag_not_bit_when_x_is_flag :
    subFlagState.registers[0]? = some 5 ∧ subFlagState.registers[0xF]? = some 3 ∧
    (Chip.op_8xy4 subFlagState 0xF 0).map (fun s => s.registers[0xF]?) = some (some 8) ∧
    ¬ flagIsBit (Chip.op_8xy4 subFlagState 0xF 0) := by
  have h : (Chip.op_8xy4 subFlagState 0xF 0).map (fun s => s.registers[0xF]?)
      = some (some 8) := by decide
  refine ⟨by decide, by decide, h, ?_⟩
  rintro ⟨s', hs', hbit⟩
  rw [hs'] at h
  simp only [Option.map_some', Option.some.injEq] at h
  rw [h] at hbit
  rcases hbit with h0 | h1
  · exact absurd (Option.some.inj h0) (by decide)
  · exact absurd (Option.some.inj h1) (by decide)

/-- C12, amended: for every well-formed machine state and register indices
`x`, `y` in `0..15` (with `y = 0xF` allowed), `op_8xy6` returns with
`registers[0xF]` equal to `0` or `1`, and when `x ≠ 0xF` so do `op_8xy4`,
`op_8xy5`, `op_8xy7` and `op_8xye`. -/
theorem flag_is_bit (s : Chip) (x y : Nat) (hs : s.WF) (hx : x < 16) (hy : y < 16) :
    flagIsBit (Chip.op_8xy6 s x) ∧
    (x ≠ 0xF →
      flagIsBit (Chip.op_8xy4 s x y) ∧ flagIsBit (Chip.op_8xy5 s x y) ∧
      flagIsBit (Chip.op_8xy7 s x y) ∧ flagIsBit (Chip.op_8xye s x)) :=
  ⟨op_8xy6_flag s x hs hx, fun hxf =>
    ⟨op_8xy4_flag s x y hs hx hy hxf, op_8xy5_flag s x y hs hx hy hxf,
     op_8xy7_flag s x y hs hx hy hxf, op_8xye_flag s x hs hx hxf⟩⟩

theorem subFlagState_WF : subFlagState.WF :=
  { rt_lt := by decide, rd_lt := by decide, sp_lt := by decide, i_lt := by decide,
    pc_lt := by decide, stack_len := by decide, stack_lt := by decide,
    memory_len := by decide!, memory_lt := by decide!,
    registers_len := by decide, registers_lt := by decide,
    keyboard_len := by decide, screen_len := by decide,
    screen_row_len := by decide!, screen_lt := by decide! }

theorem flag_is_bit_witness :
    flagIsBit (Chip.op_8xy6 subFlagState 0) ∧
    (0 ≠ 0xF →
      flagIsBit (Chip.op_8xy4 subFlagState 0 0xF) ∧ flagIsBit (Chip.op_8xy5 subFlagState 0 0xF) ∧
      flagIsBit (Chip.op_8xy7 subFlagState 0 0xF) ∧ flagIsBit (Chip.op_8xye subFlagState 0)) :=
  flag_is_bit subFlagState 0 0xF subFlagState_WF (by decide) (by decide)


/-! ## Screen cells, jump with offset, skip after load -/

/-- C13 at the failing input, `op_dxyn(0, 0, 0)` on the constructed machine: the
screen of the constructor holds `0` in every cell, the loop runs once
(`j = 0 <= n = 0`) on the sprite byte `memory[0] = 0xF0`, and the unmasked
shifts `0xF0 >> (7 - bit)` XOR-ed into `screen[0][0]` leave the cell at `160`,
which is neither `0` nor `1`. -/
theorem op_dxyn_cell_not_a_bit :
    (∀ row ∈ Chip.new.screen, ∀ v ∈ row, v = 0) ∧
    Chip.new.memory[0]? = some 0xF0 ∧
    (Chip.op_dxyn Chip.new 0 0 0).map (fun s => pixelAt s.screen 0 0) = some (some 160) := by
  decide!

/-- C14 at the failing input, `op_bnnn(0x300)` on the constructed machine
(`registers[0] = 0`): the handler sets `pc = registers[0] + 0x300` and then adds
`OP_OFFSET`, leaving `pc = 0x302`; the plain jump `op_1nnn(0x300)` leaves
`pc = 0x300`. -/
theorem op_bnnn_adds_offset :
    Chip.new.registers[0]? = some 0 ∧
    (Chip.op_bnnn Chip.new 0x300).map (fun s => s.pc) = some 0x302 ∧
    (Chip.op_1nnn Chip.new 0x300).map (fun s => s.pc) = some 0x300 := by
  decide!

theorem op_6xkk_eq (s : Chip) (kk x : Nat) (hs : s.WF) (hx : x < 16) :
    Chip.op_6xkk s kk x =
      some { s with registers := s.registers.set x kk, pc := (s.pc + 2) % 65536 } := by
  have hlen := hs.registers_len
  simp only [Chip.op_6xkk, store, hlen, hx, if_true, Option.bind_eq_bind, Option.some_bind,
    OP_OFFSET]

theorem op_3xkk_eq (s : Chip) (kk x v : Nat) (hv : s.registers[x]? = some v) :
    Chip.op_3xkk s kk x =
      some { s with pc := (s.pc + (if v = kk then 4 else 2)) % 65536 } := by
  simp only [Chip.op_3xkk, hv, Option.bind_eq_bind, Option.some_bind, OP_OFFSET]
  split <;> rfl

/-- C15: for every well-formed machine state, register index `x` in `0..15`, byte
`kk` and unmatched 16-bit word `opcode`, `op_6xkk(kk, x)`, then
`execute(opcode)`, then `op_3xkk(kk, x)` all return and end with
`pc = (pc0 + 8) mod 2^16` (the skip is taken); and `op_3xkk` alone returns the
state unchanged except for `pc`, advanced by `4` when `registers[x] = kk` and by
`2` otherwise (as a 16-bit word). -/
theorem skip_after_load (s : Chip) (kk x opcode : Nat) (hs : s.WF) (hx : x < 16)
    (hkk : kk < 256) (hop : opcode < 65536) (h1 : opcode ≠ 0x00E0) (h2 : opcode ≠ 0x00EE) :
    (∃ s', (Chip.op_6xkk s kk x >>= (fun t => Chip.execute t opcode) >>=
        fun t => Chip.op_3xkk t kk x) = some s' ∧ s'.pc = (s.pc + 8) % 65536) ∧
    (∃ v, s.registers[x]? = some v ∧
      Chip.op_3xkk s kk x = some { s with pc := (s.pc + (if v = kk then 4 else 2)) % 65536 }) := by
  have hlen := hs.registers_len
  constructor
  · have hv : (s.registers.set x kk)[x]? = some kk := by simp [hlen, hx]
    refine ⟨{ s with
        registers := s.registers.set x kk,
        pc := (((s.pc + 2) % 65536 + 2) % 65536 + 4) % 65536 }, ?_, ?_⟩
    · rw [op_6xkk_eq s kk x hs hx]
      simp only [Option.bind_eq_bind, Option.some_bind]
      rw [execute_default_eq _ opcode hop h1 h2]
      simp only [Option.some_bind]
      rw [op_3xkk_eq _ kk x kk hv]
      simp only [if_true]
    · show (((s.pc + 2) % 65536 + 2) % 65536 + 4) % 65536 = (s.pc + 8) % 65536
      omega
  · obtain ⟨v, hv, -⟩ := getElem?_some_of_lt s.registers x (by omega)
    exact ⟨v, hv, op_3xkk_eq s kk x v hv⟩

theorem skip_after_load_witness :
    (∃ s', (Chip.op_6xkk scenario 0x2A 3 >>= (fun t => Chip.execute t 0x1234) >>=
        fun t => Chip.op_3xkk t 0x2A 3) = some s' ∧ s'.pc = (scenario.pc + 8) % 65536) ∧
    (∃ v, scenario.registers[3]? = some v ∧
      Chip.op_3xkk scenario 0x2A 3 =
        some { scenario with pc := (scenario.pc + (if v = 0x2A then 4 else 2)) % 65536 }) :=
  skip_after_load scenario 0x2A 3 0x1234 scenario_WF (by decide) (by decide) (by decide)
    (by decide) (by decide)

/-! ## Clear-screen and the frame of the dispatcher -/

theorem execute_00e0 (s : Chip) : Chip.execute s 0x00E0 = Chip.op_00e0 s := rfl

theorem execute_00ee (s : Chip) : Chip.execute s 0x00EE = Chip.op_00ee s := rfl

/-- C16: for every machine state, `execute(0x00E0)` returns, leaves every screen
cell equal to `0`, keeps the number of rows and the length of every row, sets
`pc` to `(pc + 2) mod 2^16`, and leaves memory, registers, `i`, stack and `sp`
unchanged. -/
theorem execute_clear_screen (s : Chip) :
    ∃ s', Chip.execute s 0x00E0 = some s' ∧
      (∀ row ∈ s'.screen, ∀ v ∈ row, v = 0) ∧
      s'.screen.length = s.screen.length ∧
      s'.screen.map List.length = s.screen.map List.length ∧
      s'.pc = (s.pc + 2) % 65536 ∧
      s'.memory = s.memory ∧ s'.registers = s.registers ∧ s'.i = s.i ∧
      s'.stack = s.stack ∧ s'.sp = s.sp := by
  refine ⟨_, execute_00e0 s, ?_, ?_, ?_, rfl, rfl, rfl, rfl, rfl, rfl⟩
  · intro row hrow v hv
    obtain ⟨r0, -, rfl⟩ := List.mem_map.mp hrow
    exact List.eq_of_mem_replicate hv
  · exact List.length_map _ _
  · show (s.screen.map _).map List.length = _
    rw [List.map_map]
    apply List.map_congr_left
    intro r _
    simp


/-! ## Key mapping -/

/-- C18 at the failing input, a default `Input` object, `set_key(1, true)`, then
`is_pressed(0x31)`: `keymap` holds the physical codes at the indices `0..15`
and `0` everywhere else, so `keymap.at(0x31)` is `0` and the call returns
`keyboard[0] = false`, not the state `true` stored in slot `1`. -/
theorem is_pressed_reads_slot_zero :
    Input.new.keymap[0x31]? = some 0 ∧ Input.new.keymap[1]? = some 0x31 ∧
    (Input.new.set_key 1 true >>= fun o => o.get 1) = some true ∧
    (Input.new.set_key 1 true >>= fun o => o.is_pressed 0x31) = some false := by
  decide!

/-- Every physical code of the key table is sent to slot `0` by `keymap`, and a
logical key `0..15` is sent to its physical code, outside the 16 key states:
`is_pressed` of a logical key is `std::out_of_range`. -/
theorem keymap_of_table :
    (∀ p ∈ keyTable, Input.new.keymap[p.1]? = some 0) ∧
    (∀ p ∈ keyTable, Input.new.keymap[p.2]? = some p.1) ∧
    (∀ p ∈ keyTable, Input.new.is_pressed p.2 = none) := by
  decide!

/-! ## Draw with the address register above the row count -/

/-- C19: for every well-formed machine state and all `x`, `y`, `n` with `i > n`,
`op_dxyn(x, y, n)` returns, leaves every screen cell unchanged, sets
`registers[0xF]` to `0`, leaves every other register unchanged and advances
`pc` by `2` (as a 16-bit word); memory, `i`, stack and `sp` are unchanged too. -/
theorem op_dxyn_no_rows (s : Chip) (x y n : Nat) (hs : s.WF) (hin : s.i > n) :
    ∃ s', Chip.op_dxyn s x y n = some s' ∧
      s'.screen = s.screen ∧
      s'.registers[0xF]? = some 0 ∧
      (∀ k, k ≠ 0xF → s'.registers[k]? = s.registers[k]?) ∧
      s'.pc = (s.pc + 2) % 65536 ∧
      s'.memory = s.memory ∧ s'.i = s.i ∧ s'.stack = s.stack ∧ s'.sp = s.sp := by
  have hlen := hs.registers_len
  have hrows : n + 1 - s.i = 0 := by omega
  refine ⟨{ s with registers := s.registers.set 0x0f 0, pc := (s.pc + OP_OFFSET) % 65536 },
    ?_, rfl, ?_, ?_, rfl, rfl, rfl, rfl, rfl⟩
  · simp only [Chip.op_dxyn, store, hlen, show (0x0f : Nat) < 16 by decide, if_true, hrows,
      List.range'_zero, List.foldlM_nil, Option.bind_eq_bind, Option.some_bind,
      Option.pure_def]
  · show (s.registers.set 0x0f 0)[0xF]? = some 0
    simp [hlen]
  · intro k hk
    exact List.getElem?_set_ne (Ne.symm hk)

theorem edgeState_WF : edgeState.WF :=
  { rt_lt := by decide, rd_lt := by decide, sp_lt := by decide, i_lt := by decide,
    pc_lt := by decide, stack_len := by decide, stack_lt := by decide,
    memory_len := by decide!, memory_lt := by decide!,
    registers_len := by decide, registers_lt := by decide,
    keyboard_len := by decide, screen_len := by decide,
    screen_row_len := by decide!, screen_lt := by decide! }

theorem op_dxyn_no_rows_witness :
    edgeState.i > 15 ∧
    ∃ s', Chip.op_dxyn edgeState 0 1 15 = some s' ∧
      s'.screen = edgeState.screen ∧
      s'.registers[0xF]? = some 0 ∧
      (∀ k, k ≠ 0xF → s'.registers[k]? = edgeState.registers[k]?) ∧
      s'.pc = (edgeState.pc + 2) % 65536 ∧
      s'.memory = edgeState.memory ∧ s'.i = edgeState.i ∧ s'.stack = edgeState.stack ∧
      s'.sp = edgeState.sp :=
  ⟨by decide, op_dxyn_no_rows edgeState 0 1 15 edgeState_WF (by decide)⟩

/-! ## The dispatcher leaves the data state alone -/

theorem execute_cases (s : Chip) (opcode : Nat) (hop : opcode < 65536) :
    Chip.execute s opcode = Chip.op_00e0 s ∨ Chip.execute s opcode = Chip.op_00ee s ∨
    Chip.execute s opcode = some { s with pc := (s.pc + 2) % 65536 } := by
  by_cases h1 : opcode = 0x00E0
  · subst h1; exact Or.inl rfl
  · by_cases h2 : opcode = 0x00EE
    · subst h2; exact Or.inr (Or.inl rfl)
    · exact Or.inr (Or.inr (execute_default_eq s opcode hop h1 h2))

theorem execute_sameData (s s' : Chip) (opcode : Nat) (hop : opcode < 65536)
    (h : Chip.execute s opcode = some s') : sameData s s' := by
  rcases execute_cases s opcode hop with h0 | h0 | h0
  · rw [h0] at h
    have hs' := (Option.some.inj h).symm
    subst hs'
    exact ⟨rfl, rfl, rfl, rfl⟩
  · rw [h0] at h
    simp only [Chip.op_00ee, Option.bind_eq_bind] at h
    obtain ⟨ret, -, hret⟩ := Option.bind_eq_some.mp h
    have hs' := (Option.some.inj hret).symm
    subst hs'
    exact ⟨rfl, rfl, rfl, rfl⟩
  · rw [h0] at h
    have hs' := (Option.some.inj h).symm
    subst hs'
    exact ⟨rfl, rfl, rfl, rfl⟩

/-- C20: for every well-formed machine state with `sp >= 1` and every 16-bit
instruction word, whatever state `execute(opcode)` returns has the same 16
registers, the same `i`, the same 4096 memory bytes and the same 16 stack slots
as before; and with the stack index inside the stack (`sp <= 16`, the bound of
the data model) `execute(opcode)` does return. -/
theorem execute_keeps_data (s : Chip) (opcode : Nat) (hs : s.WF) (hsp : 1 ≤ s.sp)
    (hop : opcode < 65536) :
    (∀ s', Chip.execute s opcode = some s' → sameData s s') ∧
    (s.sp ≤ 16 → ∃ s', Chip.execute s opcode = some s' ∧ sameData s s') := by
  refine ⟨fun s' h => execute_sameData s s' opcode hop h, fun hsp16 => ?_⟩
  have hlen := hs.stack_len
  have hex : ∃ s', Chip.execute s opcode = some s' := by
    rcases execute_cases s opcode hop with h0 | h0 | h0
    · exact ⟨_, h0⟩
    · obtain ⟨ret, hret, -⟩ := getElem?_some_of_lt s.stack ((s.sp + 256 - 1) % 256)
        (by omega)
      refine ⟨{ s with sp := (s.sp + 256 - 1) % 256, pc := ret }, ?_⟩
      rw [h0]
      simp only [Chip.op_00ee, hret, Option.bind_eq_bind, Option.some_bind]
    · exact ⟨_, h0⟩
  obtain ⟨s', h⟩ := hex
  exact ⟨s', h, execute_sameData s s' opcode hop h⟩

theorem calledState_WF : calledState.WF :=
  { rt_lt := by decide, rd_lt := by decide, sp_lt := by decide, i_lt := by decide,
    pc_lt := by decide, stack_len := by decide, stack_lt := by decide,
    memory_len := by decide!, memory_lt := by decide!,
    registers_len := by decide, registers_lt := by decide,
    keyboard_len := by decide, screen_len := by decide,
    screen_row_len := by decide!, screen_lt := by decide! }

theorem execute_keeps_data_witness :
    (Chip.op_2nnn Chip.new 0x300 = some calledState) ∧ 1 ≤ calledState.sp ∧
    (∀ s', Chip.execute calledState 0x00EE = some s' → sameData calledState s') ∧
    (calledState.sp ≤ 16 →
      ∃ s', Chip.execute calledState 0x00EE = some s' ∧ sameData calledState s') :=
  ⟨by decide!, by decide,
    execute_keeps_data calledState 0x00EE calledState_WF (by decide) (by decide)⟩


/-! ## The program counter along the cycle -/

theorem fetch_some (s t : Chip) (w : Nat) (h : Chip.fetch s = some (w, t)) :
    t = s ∧ w < 65536 ∧ s.pc + 1 < s.memory.length := by
  simp only [Chip.fetch, Option.bind_eq_bind] at h
  obtain ⟨hi, -, h⟩ := Option.bind_eq_some.mp h
  obtain ⟨lo, hlo, h⟩ := Option.bind_eq_some.mp h
  have hpair := Option.some.inj h
  have hw : ((hi <<< 8) ||| lo) % 65536 = w := congrArg Prod.fst hpair
  have ht : s = t := congrArg Prod.snd hpair
  refine ⟨ht.symm, ?_, ?_⟩
  · rw [← hw]; exact Nat.mod_lt _ (by decide)
  · by_contra hge
    rw [List.getElem?_eq_none (Nat.le_of_not_lt hge)] at hlo
    exact Option.noConfusion hlo

theorem loadProgram_CycleInv (prog : List Nat) (hlen : prog.length = 0xE00) :
    CycleInv 0 (loadProgram prog) := by
  refine ⟨rfl, by decide, rfl, rfl, ?_⟩
  show (Chip.new.memory.take 0x200 ++ prog).length = 0x1000
  rw [List.length_append, List.length_take, Chip.new_WF.memory_len, hlen]
  decide

theorem cycleBody_CycleInv (j : Nat) (s s' : Chip) (hinv : CycleInv j s)
    (h : Chip.cycleBody s = some s') : CycleInv (j + 1) s' := by
  obtain ⟨hpc, hj, hsp, hstack, hmem⟩ := hinv
  simp only [Chip.cycleBody, Option.bind_eq_bind] at h
  obtain ⟨⟨w, t⟩, hfetch, hexec⟩ := Option.bind_eq_some.mp h
  obtain ⟨rfl, hw, hin⟩ := fetch_some s t w hfetch
  simp only at hexec
  have hnext : (t.pc + 2) % 65536 = 0x200 + 2 * (j + 1) := by omega
  have hj1 : j + 1 ≤ 1792 := by omega
  rcases execute_cases t w hw with h0 | h0 | h0
  · rw [h0] at hexec
    have hs' := (Option.some.inj hexec).symm
    subst hs'
    exact ⟨hnext, hj1, hsp, hstack, hmem⟩
  · rw [h0] at hexec
    simp only [Chip.op_00ee, Option.bind_eq_bind] at hexec
    obtain ⟨ret, hret, -⟩ := Option.bind_eq_some.mp hexec
    rw [hsp, List.getElem?_eq_none (by rw [hstack]; decide)] at hret
    exact Option.noConfusion hret
  · rw [h0] at hexec
    have hs' := (Option.some.inj hexec).symm
    subst hs'
    exact ⟨hnext, hj1, hsp, hstack, hmem⟩

theorem cycles_CycleInv (k : Nat) : ∀ (j : Nat) (s s' : Chip), CycleInv j s →
    cycles k s = some s' → CycleInv (j + k) s' := by
  induction k with
  | zero =>
    intro j s s' hinv h
    have hs' := (Option.some.inj h).symm
    subst hs'
    exact hinv
  | succ k ih =>
    intro j s s' hinv h
    simp only [cycles, Option.bind_eq_bind] at h
    obtain ⟨t, ht, hrest⟩ := Option.bind_eq_some.mp h
    have := ih (j + 1) t s' (cycleBody_CycleInv j s t hinv ht) hrest
    rwa [Nat.add_assoc, Nat.add_comm 1 k] at this

theorem zeroProgram_length : zeroProgram.length = 0xE00 :=
  List.length_replicate 0xE00 0

theorem zero_memory (a : Nat) (h1 : 0x200 ≤ a) (h2 : a < 0x1000) :
    (loadProgram zeroProgram).memory[a]? = some 0 := by
  have hlen : (Chip.new.memory.take 0x200).length = 0x200 := by
    rw [List.length_take, Chip.new_WF.memory_len]; decide
  show (Chip.new.memory.take 0x200 ++ zeroProgram)[a]? = some 0
  rw [List.getElem?_append_right (by omega), hlen, zeroProgram, List.getElem?_replicate]
  simp; omega

theorem zero_cycleBody (j : Nat) (hj : j < 1792) :
    Chip.cycleBody { loadProgram zeroProgram with pc := 0x200 + 2 * j } =
      some { loadProgram zeroProgram with pc := 0x200 + 2 * (j + 1) } := by
  have hhi := zero_memory (0x200 + 2 * j) (by omega) (by omega)
  have hlo := zero_memory (0x200 + 2 * j + 1) (by omega) (by omega)
  have hfetch : Chip.fetch { loadProgram zeroProgram with pc := 0x200 + 2 * j } =
      some (0, { loadProgram zeroProgram with pc := 0x200 + 2 * j }) := by
    simp only [Chip.fetch, Option.bind_eq_bind]
    rw [show ({ loadProgram zeroProgram with pc := 0x200 + 2 * j } : Chip).memory
      = (loadProgram zeroProgram).memory from rfl, hhi, hlo]
    rfl
  simp only [Chip.cycleBody, hfetch, Option.bind_eq_bind, Option.some_bind]
  rw [execute_default_eq _ 0 (by decide) (by decide) (by decide)]
  have hnext : (0x200 + 2 * j + 2) % 65536 = 0x200 + 2 * (j + 1) := by omega
  show some { loadProgram zeroProgram with pc := (0x200 + 2 * j + 2) % 65536 } = _
  rw [hnext]

theorem zero_cycles (k : Nat) : ∀ j, j + k ≤ 1792 →
    cycles k { loadProgram zeroProgram with pc := 0x200 + 2 * j } =
      some { loadProgram zeroProgram with pc := 0x200 + 2 * (j + k) } := by
  induction k with
  | zero => intro j _; rfl
  | succ k ih =>
    intro j hj
    simp only [cycles, Option.bind_eq_bind]
    rw [zero_cycleBody j (by omega)]
    simp only [Option.some_bind]
    rw [ih (j + 1) (by omega), Nat.add_assoc, Nat.add_comm 1 k]

theorem zero_cycles_from_start (k : Nat) (hk : k ≤ 1792) :
    cycles k (loadProgram zeroProgram) =
      some { loadProgram zeroProgram with pc := 0x200 + 2 * k } := by
  have h := zero_cycles k 0 (by omega)
  rw [Nat.zero_add] at h
  exact h

/-- C11, as stated, fails: on the constructed machine with zero bytes at
`0x200..0xFFF` the first 1792 iterations of the cycle body all return, and they
leave `pc = 0x1000`, which is not below `0x1000`; the next fetch reads
`memory[0x1000]`, outside the 4096-byte memory. -/
theorem pc_reaches_end_of_memory :
    zeroProgram.length = 0xE00 ∧
    ∃ s', cycles 1792 (loadProgram zeroProgram) = some s' ∧ s'.pc = 0x1000 ∧
      ¬ s'.pc < 0x1000 ∧ s'.memory.length = 0x1000 ∧ Chip.fetch s' = none := by
  have hlen : (loadProgram zeroProgram).memory.length = 0x1000 :=
    (loadProgram_CycleInv zeroProgram zeroProgram_length).2.2.2.2
  refine ⟨zeroProgram_length, _, zero_cycles_from_start 1792 (Nat.le_refl _), rfl,
    by decide, hlen, ?_⟩
  simp only [Chip.fetch, Option.bind_eq_bind]
  rw [show ({ loadProgram zeroProgram with pc := 0x200 + 2 * 1792 } : Chip).memory
    = (loadProgram zeroProgram).memory from rfl,
    List.getElem?_eq_none (by omega)]
  rfl

/-- C11, amended: for every memory content `prog` placed at `0x200..0xFFF` of a
constructed machine and every number `k` of iterations of the cycle body that
all return, `pc = 0x200 + 2 k`; so `pc` is even, `0 <= pc <= 0x1000`, at most
1792 iterations return, and `pc < 0x1000` exactly while `k < 1792`. -/
theorem pc_after_cycles (prog : List Nat) (k : Nat) (s' : Chip)
    (hlen : prog.length = 0xE00) (h : cycles k (loadProgram prog) = some s') :
    s'.pc = 0x200 + 2 * k ∧ s'.pc % 2 = 0 ∧ s'.pc ≤ 0x1000 ∧ k ≤ 1792 ∧
      (s'.pc < 0x1000 ↔ k < 1792) := by
  have hinv := cycles_CycleInv k 0 (loadProgram prog) s' (loadProgram_CycleInv prog hlen) h
  rw [Nat.zero_add] at hinv
  obtain ⟨hpc, hk, -⟩ := hinv
  refine ⟨hpc, ?_, ?_, hk, ?_⟩ <;> omega

theorem pc_after_cycles_witness :
    zeroProgram.length = 0xE00 ∧
    cycles 3 (loadProgram zeroProgram) =
      some { loadProgram zeroProgram with pc := 0x200 + 2 * 3 } ∧
    ({ loadProgram zeroProgram with pc := 0x200 + 2 * 3 } : Chip).pc = 0x200 + 2 * 3 ∧
    ({ loadProgram zeroProgram with pc := 0x200 + 2 * 3 } : Chip).pc % 2 = 0 ∧
    ({ loadProgram zeroProgram with pc := 0x200 + 2 * 3 } : Chip).pc ≤ 0x1000 ∧ 3 ≤ 1792 ∧
    (({ loadProgram zeroProgram with pc := 0x200 + 2 * 3 } : Chip).pc < 0x1000 ↔ 3 < 1792) :=
  ⟨zeroProgram_length, zero_cycles_from_start 3 (by decide),
    pc_after_cycles zeroProgram 3 _ zeroProgram_length (zero_cycles_from_start 3 (by decide))⟩
